import Mathlib

/-!
# Employee management system: a shallow embedding of `src/main.cpp`

The C++ program keeps a `std::vector<Employee>` inside an `EmployeeRepository`
and drives it from a console menu.  The embedding below follows the source
function by function.

Modelling conventions:

* `int` identifiers are `Int` (they are only ever compared for equality);
* `double` amounts are exact rationals `ℚ`, so the net salary is an exact
  product and no rounding is modelled;
* `std::vector<Employee>` is a `List Employee`; an iterator or an
  `Employee*` into the vector is the index of the element it designates, the
  past-the-end iterator being the length of the list;
* `std::cin` is the list of the lines still unread, `std::cout` the list of
  the items streamed so far;
* a function that never returns (the re-prompt loops once the input is
  exhausted) yields `none`.
-/

namespace EmployeeSystem

/-! ## 1. Data model: `class Employee` -/

/-- The four private members of `class Employee`. -/
structure Employee where
  m_employeeID : Int
  m_name : String
  m_salary : ℚ
  m_department : String
deriving DecidableEq

namespace Employee

/-- `int Employee::getEmployeeID() const`. -/
def getEmployeeID (e : Employee) : Int := e.m_employeeID

/-- `const std::string& Employee::getName() const`. -/
def getName (e : Employee) : String := e.m_name

/-- `double Employee::getSalary() const`. -/
def getSalary (e : Employee) : ℚ := e.m_salary

/-- `const std::string& Employee::getDepartment() const`. -/
def getDepartment (e : Employee) : String := e.m_department

/-- `void Employee::setSalary(double salary)`: `m_salary = salary`. -/
def setSalary (e : Employee) (salary : ℚ) : Employee :=
  { e with m_salary := salary }

/-- `void Employee::setDepartment(const std::string&)`: `m_department = department`. -/
def setDepartment (e : Employee) (department : String) : Employee :=
  { e with m_department := department }

/-- The local constant `TAX_RATE = 0.10` of `Employee::display`. -/
def TAX_RATE : ℚ := 0.10

/-- The local `netSalary = m_salary * (1 - TAX_RATE)` of `Employee::display`. -/
def netSalary (e : Employee) : ℚ := e.m_salary * (1 - TAX_RATE)

end Employee

/-- One item streamed into `std::cout` with `<<`. -/
inductive Printed where
  | text (s : String)
  | int (n : Int)
  | real (x : ℚ)
  | endl
deriving DecidableEq

/-- `void Employee::display() const`: the five lines it streams, appended to
what `std::cout` already holds. -/
def Employee.display (e : Employee) (cout : List Printed) : List Printed :=
  let netSalary := e.netSalary
  cout ++
    [Printed.text "  ID         : ", Printed.int e.m_employeeID, Printed.endl,
     Printed.text "  Name       : ", Printed.text e.m_name, Printed.endl,
     Printed.text "  Department : ", Printed.text e.m_department, Printed.endl,
     Printed.text "  Gross Salary: $", Printed.real e.m_salary, Printed.endl,
     Printed.text "  Net Salary (after 10% tax): $", Printed.real netSalary, Printed.endl]

/-! ## 2. Data logic: `class EmployeeRepository` -/

/-- `std::find_if(first, last, pred)` over a whole vector: the position of the
first element satisfying `pred`, or the length of the vector (the `end()`
iterator) when there is none. -/
def find_if (pred : Employee → Bool) : List Employee → Nat
  | [] => 0
  | e :: rest => if pred e then 0 else find_if pred rest + 1

/-- The compaction loop of `std::remove_if`: `count` elements remain to be
read, `i` is the read position and `result` the write position.  An element
that does not satisfy `pred` is assigned to `v[result]`, which then advances. -/
def remove_if_loop (pred : Employee → Bool) :
    Nat → List Employee → Nat → Nat → List Employee × Nat
  | 0, v, result, _ => (v, result)
  | count + 1, v, result, i =>
    match v[i]? with
    | none => (v, result)
    | some x =>
      if pred x then remove_if_loop pred count v result (i + 1)
      else remove_if_loop pred count (v.set result x) (result + 1) (i + 1)

/-- `std::remove_if(first, last, pred)` over a whole vector, as the standard
library implements it: find the first element to remove, then shift every
later element that is kept down over the gap.  Returns the vector as the
algorithm leaves it together with the returned iterator (the end of the kept
range).  The elements from that iterator on are left-overs: C++ leaves them in
a moved-from state, here they keep their old value; `remove` erases them
before anything reads them, and none exists when nothing was removed. -/
def remove_if (pred : Employee → Bool) (v : List Employee) : List Employee × Nat :=
  let first := find_if pred v
  if first ≠ v.length then
    remove_if_loop pred (v.length - (first + 1)) v first (first + 1)
  else (v, first)

/-- The single private member of `class EmployeeRepository`. -/
structure EmployeeRepository where
  m_employees : List Employee
deriving DecidableEq

namespace EmployeeRepository

/-- `bool EmployeeRepository::add(const Employee&)`: the repository afterwards
and the returned flag. -/
def add (r : EmployeeRepository) (employee : Employee) : EmployeeRepository × Bool :=
  let id := employee.getEmployeeID
  let it := find_if (fun e => e.getEmployeeID == id) r.m_employees
  if it ≠ r.m_employees.length then
    (r, false)
  else
    (⟨r.m_employees ++ [employee]⟩, true)

/-- `bool EmployeeRepository::remove(int)`: the repository afterwards and the
returned flag.  `erase(it, end())` keeps the first `it` elements. -/
def remove (r : EmployeeRepository) (employeeID : Int) : EmployeeRepository × Bool :=
  let res := remove_if (fun e => e.getEmployeeID == employeeID) r.m_employees
  let it := res.2
  if it ≠ res.1.length then
    (⟨res.1.take it⟩, true)
  else
    (⟨res.1⟩, false)

/-- `Employee* EmployeeRepository::findById(int)`: the position of the record
the returned pointer designates, `none` for `nullptr`. -/
def findById (r : EmployeeRepository) (employeeID : Int) : Option Nat :=
  let it := find_if (fun e => e.getEmployeeID == employeeID) r.m_employees
  if it ≠ r.m_employees.length then some it else none

/-- `const std::vector<Employee>& EmployeeRepository::getAll() const`. -/
def getAll (r : EmployeeRepository) : List Employee := r.m_employees

/-- Reading through an `Employee*` obtained from `findById`. -/
def deref (r : EmployeeRepository) (p : Nat) : Option Employee := r.m_employees[p]?

/-- Calling a setter through an `Employee*` (or the `Employee&` bound to it)
obtained from `findById`: the designated element of the vector is replaced by
the result of the setter, everything else stays in place. -/
def mutate (r : EmployeeRepository) (p : Nat) (setter : Employee → Employee) :
    EmployeeRepository :=
  match r.m_employees[p]? with
  | none => r
  | some e => ⟨r.m_employees.set p (setter e)⟩

end EmployeeRepository

/-! ## 3. Sequences of repository calls -/

/-- A call of one of the two mutating member functions of the repository. -/
inductive Call where
  | add (employee : Employee)
  | remove (employeeID : Int)
deriving DecidableEq

/-- What a client can do to a repository: call `add` or `remove`, or look a
record up with `findById` and, when the pointer is not null, call one of the
two setters through it (as `handleUpdateEmployee` does). -/
inductive Action where
  | call (c : Call)
  | setSalary (employeeID : Int) (salary : ℚ)
  | setDepartment (employeeID : Int) (department : String)
deriving DecidableEq

namespace EmployeeRepository

/-- The repository after one call, the returned flag dropped. -/
def perform (r : EmployeeRepository) : Call → EmployeeRepository
  | Call.add employee => (r.add employee).1
  | Call.remove employeeID => (r.remove employeeID).1

/-- The repository after a sequence of calls, first call first. -/
def performAll (r : EmployeeRepository) (calls : List Call) : EmployeeRepository :=
  calls.foldl perform r

/-- `findById` followed by a setter on the record found; a null pointer is
not dereferenced. -/
def updateById (r : EmployeeRepository) (employeeID : Int)
    (setter : Employee → Employee) : EmployeeRepository :=
  match r.findById employeeID with
  | none => r
  | some p => r.mutate p setter

/-- The repository after one action. -/
def act (r : EmployeeRepository) : Action → EmployeeRepository
  | Action.call c => r.perform c
  | Action.setSalary employeeID salary =>
    r.updateById employeeID (fun e => e.setSalary salary)
  | Action.setDepartment employeeID department =>
    r.updateById employeeID (fun e => e.setDepartment department)

/-- The repository after a sequence of actions, first action first. -/
def actAll (r : EmployeeRepository) (actions : List Action) : EmployeeRepository :=
  actions.foldl act r

end EmployeeRepository

/-- The repository `main` starts from: a default-constructed, empty vector. -/
def emptyRepository : EmployeeRepository := ⟨[]⟩

/-- The record contributed by the call at position `k` of `calls` to what the
specification expects `getAll` to list: the record of an `add` that returned
`true` (on the repository the earlier calls produced from the empty one) and
that no later `remove` of its identifier follows; nothing otherwise. -/
def keptAt (calls : List Call) (k : Nat) : Option Employee :=
  match calls[k]? with
  | some (Call.add e) =>
    if ((emptyRepository.performAll (calls.take k)).add e).2 = true
        ∧ Call.remove e.getEmployeeID ∉ calls.drop (k + 1) then some e
    else none
  | _ => none

/-- The records the specification expects `getAll` to list after `calls` have
been applied to the empty repository: the records whose `add` succeeded and
that were not removed afterwards, in the order of those `add` calls. -/
def addedAndKept (calls : List Call) : List Employee :=
  (List.range calls.length).filterMap (keptAt calls)

/-- The specification's condition for a lookup of `employeeID` to succeed
after `calls` have been applied to the empty repository: some `add` of a record
with that identifier returned `true` and no `remove` of the identifier comes
after it. -/
def AddedAndNotRemoved (calls : List Call) (employeeID : Int) : Prop :=
  ∃ before e after, calls = before ++ Call.add e :: after
    ∧ e.getEmployeeID = employeeID
    ∧ ((emptyRepository.performAll before).add e).2 = true
    ∧ Call.remove employeeID ∉ after

/-! ## 4. Application: the console and the menu loop -/

/-- What a formatted extraction `std::cin >> value` does with a line of input. -/
inductive Extract (α : Type) where
  /-- the line holds white space only: it is skipped and the extraction goes on
  with the next line -/
  | blank
  /-- the line does not start with a number: the extraction fails -/
  | failed
  /-- the line starts with a number, which is extracted -/
  | value (v : α)
deriving DecidableEq

/-- One line of the console input: its text (what `std::getline` returns) and
what the extraction of an `int` and of a `double` make of it. -/
structure Line where
  text : String
  asInt : Extract Int
  asDouble : Extract ℚ
deriving DecidableEq

/-- The state `main` and the handlers work on: the repository, the lines of
`std::cin` still unread and the items streamed into `std::cout` so far. -/
structure World where
  repository : EmployeeRepository
  cin : List Line
  cout : List Printed
deriving DecidableEq

/-- `void showMenu()`. -/
def showMenu (cout : List Printed) : List Printed :=
  cout ++
    [Printed.text "\n===== Employee Management System =====", Printed.endl,
     Printed.text "1. Add Employee", Printed.endl,
     Printed.text "2. View All Employees", Printed.endl,
     Printed.text "3. Update Employee", Printed.endl,
     Printed.text "4. Delete Employee", Printed.endl,
     Printed.text "5. Exit", Printed.endl,
     Printed.text "======================================", Printed.endl,
     Printed.text "Enter your choice: "]

/-- `int getIntegerInput()`: the value read, the input left and the output.
Every failed extraction prints the re-prompt and discards the line; a
successful one discards the rest of its line.  On exhausted input the loop
never ends: `none`. -/
def getIntegerInput : List Line → List Printed → Option (Int × List Line × List Printed)
  | [], _ => none
  | l :: rest, cout =>
    match l.asInt with
    | Extract.value v => some (v, rest, cout)
    | Extract.blank => getIntegerInput rest cout
    | Extract.failed =>
      getIntegerInput rest
        (cout ++ [Printed.text "Invalid input. Please enter a whole number: "])

/-- `double getDoubleInput()`: as `getIntegerInput`, for a `double`. -/
def getDoubleInput : List Line → List Printed → Option (ℚ × List Line × List Printed)
  | [], _ => none
  | l :: rest, cout =>
    match l.asDouble with
    | Extract.value v => some (v, rest, cout)
    | Extract.blank => getDoubleInput rest cout
    | Extract.failed =>
      getDoubleInput rest
        (cout ++ [Printed.text "Invalid input. Please enter a number: "])

/-- `std::getline(std::cin, s)` into an empty string: the next line, or the
empty string when the input is exhausted. -/
def getline : List Line → String × List Line
  | [] => ("", [])
  | l :: rest => (l.text, rest)

/-- The idiom `std::getline(std::cin, s); if (s.empty()) std::getline(std::cin, s);`. -/
def getlineSkippingEmpty (cin : List Line) : String × List Line :=
  let first := getline cin
  if first.1 = "" then getline first.2 else first

/-- `void handleAddEmployee(EmployeeRepository&)`. -/
def handleAddEmployee (w : World) : Option World :=
  let cout := w.cout ++
    [Printed.text "\n--- Add New Employee ---", Printed.endl,
     Printed.text "Enter Employee ID: "]
  match getIntegerInput w.cin cout with
  | none => none
  | some (id, cin, cout) =>
    let cout := cout ++ [Printed.text "Enter Name: "]
    let name := getlineSkippingEmpty cin
    let cout := cout ++ [Printed.text "Enter Salary: "]
    match getDoubleInput name.2 cout with
    | none => none
    | some (salary, cin, cout) =>
      let cout := cout ++ [Printed.text "Enter Department: "]
      let department := getlineSkippingEmpty cin
      let newEmployee : Employee := ⟨id, name.1, salary, department.1⟩
      let added := w.repository.add newEmployee
      if added.2 then
        some ⟨added.1, department.2,
          cout ++ [Printed.text "Employee added successfully!", Printed.endl]⟩
      else
        some ⟨added.1, department.2,
          cout ++ [Printed.text "Error: Employee with ID ", Printed.int id,
            Printed.text " already exists.", Printed.endl]⟩

/-- `void handleViewEmployees(const EmployeeRepository&)`. -/
def handleViewEmployees (w : World) : World :=
  let cout := w.cout ++ [Printed.text "\n--- All Employees ---", Printed.endl]
  let employees := w.repository.getAll
  if employees.isEmpty then
    ⟨w.repository, w.cin, cout ++ [Printed.text "No employees to display.", Printed.endl]⟩
  else
    ⟨w.repository, w.cin,
      employees.foldl
        (fun cout emp =>
          emp.display cout ++
            [Printed.text "---------------------------------", Printed.endl])
        cout⟩

/-- `void handleUpdateEmployee(EmployeeRepository&)`. -/
def handleUpdateEmployee (w : World) : Option World :=
  let cout := w.cout ++
    [Printed.text "\n--- Update Employee ---", Printed.endl,
     Printed.text "Enter Employee ID to update: "]
  match getIntegerInput w.cin cout with
  | none => none
  | some (id, cin, cout) =>
    match w.repository.findById id with
    | none =>
      some ⟨w.repository, cin,
        cout ++ [Printed.text "Error: Employee with ID ", Printed.int id,
          Printed.text " not found.", Printed.endl]⟩
    | some employeePtr =>
      let empName : String :=
        match w.repository.deref employeePtr with
        | some emp => emp.getName
        | none => ""
      let cout := cout ++
        [Printed.text "Employee Found: ", Printed.text empName,
         Printed.text ". What to update?", Printed.endl,
         Printed.text "1. Update Salary", Printed.endl,
         Printed.text "2. Update Department", Printed.endl,
         Printed.text "Enter your choice: "]
      match getIntegerInput cin cout with
      | none => none
      | some (choice, cin, cout) =>
        if choice = 1 then
          match getDoubleInput cin (cout ++ [Printed.text "Enter new Salary: "]) with
          | none => none
          | some (salary, cin, cout) =>
            some ⟨w.repository.mutate employeePtr (fun emp => emp.setSalary salary), cin,
              cout ++ [Printed.text "Salary updated.", Printed.endl]⟩
        else if choice = 2 then
          let cout := cout ++ [Printed.text "Enter new Department: "]
          let newDept := getlineSkippingEmpty cin
          some ⟨w.repository.mutate employeePtr (fun emp => emp.setDepartment newDept.1),
            newDept.2, cout ++ [Printed.text "Department updated.", Printed.endl]⟩
        else
          some ⟨w.repository, cin, cout ++ [Printed.text "Invalid choice.", Printed.endl]⟩

/-- `void handleDeleteEmployee(EmployeeRepository&)`. -/
def handleDeleteEmployee (w : World) : Option World :=
  let cout := w.cout ++
    [Printed.text "\n--- Delete Employee ---", Printed.endl,
     Printed.text "Enter Employee ID to delete: "]
  match getIntegerInput w.cin cout with
  | none => none
  | some (id, cin, cout) =>
    let removed := w.repository.remove id
    if removed.2 then
      some ⟨removed.1, cin,
        cout ++ [Printed.text "Employee with ID ", Printed.int id,
          Printed.text " deleted successfully.", Printed.endl]⟩
    else
      some ⟨removed.1, cin,
        cout ++ [Printed.text "Error: Employee with ID ", Printed.int id,
          Printed.text " not found.", Printed.endl]⟩

/-- The `switch (choice)` of `main`. -/
def switchChoice (choice : Int) (w : World) : Option World :=
  if choice = 1 then handleAddEmployee w
  else if choice = 2 then some (handleViewEmployees w)
  else if choice = 3 then handleUpdateEmployee w
  else if choice = 4 then handleDeleteEmployee w
  else if choice = 5 then
    some ⟨w.repository, w.cin,
      w.cout ++ [Printed.text "Exiting application. Goodbye!", Printed.endl]⟩
  else
    some ⟨w.repository, w.cin,
      w.cout ++ [Printed.text "Invalid choice. Please try again.", Printed.endl]⟩

/-- How one pass through the body of the `do ... while (choice != 5)` loop of
`main` ends. -/
inductive Step where
  /-- the loop condition holds: the body runs again -/
  | again (w : World)
  /-- the loop condition fails: `main` returns `code` -/
  | exit (code : Int) (w : World)
  /-- the pass never ends: a re-prompt loop waits on exhausted input -/
  | stuck
deriving DecidableEq

/-- One pass through the loop of `main`: show the menu, read the choice, run
the `switch`, test `choice != 5`; after the loop comes `return 0`. -/
def mainIteration (w : World) : Step :=
  match getIntegerInput w.cin (showMenu w.cout) with
  | none => Step.stuck
  | some (choice, cin, cout) =>
    match switchChoice choice ⟨w.repository, cin, cout⟩ with
    | none => Step.stuck
    | some w1 => if choice ≠ 5 then Step.again w1 else Step.exit 0 w1

/-- How a run of `main` ends. -/
inductive Outcome where
  /-- `main` returned `code` -/
  | exited (code : Int) (w : World)
  /-- `main` never returns: a re-prompt loop waits on exhausted input -/
  | stuck
  /-- the bound on the number of passes was reached first -/
  | unfinished
deriving DecidableEq

/-- The loop of `main`, for at most `passes` passes. -/
def mainLoop : Nat → World → Outcome
  | 0, _ => Outcome.unfinished
  | passes + 1, w =>
    match mainIteration w with
    | Step.again w1 => mainLoop passes w1
    | Step.exit code w1 => Outcome.exited code w1
    | Step.stuck => Outcome.stuck

/-- `int main()` on the given console input.  Every pass consumes at least one
line, so one pass more than there are lines is never reached. -/
def main (cin : List Line) : Outcome :=
  mainLoop (cin.length + 1) ⟨emptyRepository, cin, []⟩

end EmployeeSystem

/-! ## 5. Lemmas on the vector algorithms -/

namespace EmployeeSystem

theorem find_if_le (pred : Employee → Bool) (v : List Employee) :
    find_if pred v ≤ v.length := by
  induction v with
  | nil => simp [find_if]
  | cons e rest ih =>
    by_cases h : pred e = true
    · simp [find_if, h]
    · simp [find_if, h, ih]

theorem find_if_eq_length_iff (pred : Employee → Bool) (v : List Employee) :
    find_if pred v = v.length ↔ ∀ e ∈ v, pred e = false := by
  induction v with
  | nil => simp [find_if]
  | cons e rest ih =>
    by_cases h : pred e = true
    · simp [find_if, h]
    · simp [find_if, h, ih]

theorem find_if_ne_length_iff (pred : Employee → Bool) (v : List Employee) :
    find_if pred v ≠ v.length ↔ ∃ e ∈ v, pred e = true := by
  rw [Ne, find_if_eq_length_iff]
  constructor
  · intro h
    by_contra hne
    apply h
    intro e he
    by_contra hp
    exact hne ⟨e, he, by simpa using hp⟩
  · rintro ⟨e, he, hp⟩ h
    simp [h e he] at hp

/-- The vector splits at the iterator `find_if` returns: nothing before it
satisfies the predicate, the element it designates does. -/
theorem find_if_split (pred : Employee → Bool) (v : List Employee)
    (h : find_if pred v ≠ v.length) :
    ∃ x, v = v.take (find_if pred v) ++ x :: v.drop (find_if pred v + 1)
      ∧ pred x = true
      ∧ v[find_if pred v]? = some x
      ∧ ∀ e ∈ v.take (find_if pred v), pred e = false := by
  induction v with
  | nil => simp [find_if] at h
  | cons e rest ih =>
    by_cases hp : pred e = true
    · exact ⟨e, by simp [find_if, hp]⟩
    · have h1 : find_if pred rest ≠ rest.length := by
        simpa [find_if, hp] using h
      obtain ⟨x, hx1, hx2, hx3, hx4⟩ := ih h1
      refine ⟨x, ?_, hx2, ?_, ?_⟩
      · simp only [find_if, hp, Bool.false_eq_true, if_false, List.take_succ_cons,
          List.drop_succ_cons, List.cons_append]
        rw [← hx1]
      · simpa [find_if, hp] using hx3
      · intro e1 he1
        simp only [find_if, hp, Bool.false_eq_true, if_false, List.take_succ_cons,
          List.mem_cons] at he1
        rcases he1 with rfl | he1
        · simpa using hp
        · exact hx4 e1 he1

end EmployeeSystem

namespace EmployeeSystem

/-- Writing at the end of a kept range extends the range by the element
written. -/
theorem take_succ_set (v : List Employee) (x : Employee) :
    ∀ k, k < v.length → (v.set k x).take (k + 1) = v.take k ++ [x] := by
  induction v with
  | nil => intro k hk; simp at hk
  | cons e rest ih =>
    intro k hk
    cases k with
    | zero => simp
    | succ k =>
      have hk1 : k < rest.length := by simpa using hk
      simp [ih k hk1]

/-- Invariant of the compaction loop: the length of the vector never changes,
and the kept range is what was kept before followed by the elements still to
be read that do not satisfy the predicate. -/
theorem remove_if_loop_spec (pred : Employee → Bool) :
    ∀ (count : Nat) (v : List Employee) (result i : Nat),
      result ≤ i → i + count = v.length →
      (remove_if_loop pred count v result i).1.length = v.length
      ∧ (remove_if_loop pred count v result i).2
          = result + ((v.drop i).filter (fun e => !pred e)).length
      ∧ (remove_if_loop pred count v result i).1.take
            (remove_if_loop pred count v result i).2
          = v.take result ++ (v.drop i).filter (fun e => !pred e) := by
  intro count
  induction count with
  | zero =>
    intro v result i _ hlen
    have hnil : v.drop i = [] := by
      rw [List.drop_eq_nil_iff]
      omega
    simp [remove_if_loop, hnil]
  | succ n ih =>
    intro v result i hri hlen
    have hi : i < v.length := by omega
    have hget : v[i]? = some v[i] := List.getElem?_eq_getElem hi
    have hdrop : v.drop i = v[i] :: v.drop (i + 1) := List.drop_eq_getElem_cons hi
    by_cases hp : pred v[i] = true
    · obtain ⟨h1, h2, h3⟩ := ih v result (i + 1) (by omega) (by omega)
      have hstep : remove_if_loop pred (n + 1) v result i
          = remove_if_loop pred n v result (i + 1) := by
        simp [remove_if_loop, hget, hp]
      have hfil : (v.drop i).filter (fun e => !pred e)
          = (v.drop (i + 1)).filter (fun e => !pred e) := by
        rw [hdrop, List.filter_cons]
        simp [hp]
      rw [hstep, hfil]
      exact ⟨h1, h2, h3⟩
    · have hlen1 : (v.set result v[i]).length = v.length := List.length_set ..
      obtain ⟨h1, h2, h3⟩ :=
        ih (v.set result v[i]) (result + 1) (i + 1) (by omega) (by omega)
      have hstep : remove_if_loop pred (n + 1) v result i
          = remove_if_loop pred n (v.set result v[i]) (result + 1) (i + 1) := by
        simp [remove_if_loop, hget, hp]
      have hd : (v.set result v[i]).drop (i + 1) = v.drop (i + 1) :=
        List.drop_set_of_lt v[i] v (by omega)
      have ht : (v.set result v[i]).take (result + 1) = v.take result ++ [v[i]] :=
        take_succ_set v v[i] result (by omega)
      have hfil : (v.drop i).filter (fun e => !pred e)
          = v[i] :: (v.drop (i + 1)).filter (fun e => !pred e) := by
        rw [hdrop, List.filter_cons]
        simp [hp]
      rw [hd, ht] at h3
      rw [hd] at h2
      rw [hstep, hfil]
      refine ⟨by omega, ?_, ?_⟩
      · rw [h2, List.length_cons]
        omega
      · rw [h3]
        simp

/-- What `std::remove_if` leaves: a vector of the same length whose first
`it` elements are the elements that do not satisfy the predicate, in their
previous order. -/
theorem remove_if_spec (pred : Employee → Bool) (v : List Employee) :
    (remove_if pred v).1.length = v.length
    ∧ (remove_if pred v).2 = (v.filter (fun e => !pred e)).length
    ∧ (remove_if pred v).1.take (remove_if pred v).2 = v.filter (fun e => !pred e) := by
  by_cases h : find_if pred v = v.length
  · have hall : ∀ e ∈ v, pred e = false := (find_if_eq_length_iff pred v).1 h
    have hfil : v.filter (fun e => !pred e) = v := by
      rw [List.filter_eq_self]
      intro e he
      simp [hall e he]
    have hr : remove_if pred v = (v, v.length) := by
      simp [remove_if, h]
    rw [hr, hfil]
    simp
  · obtain ⟨x, hsplit, hx, _, hbefore⟩ := find_if_split pred v h
    have hlt : find_if pred v < v.length :=
      lt_of_le_of_ne (find_if_le pred v) h
    have hr : remove_if pred v
        = remove_if_loop pred (v.length - (find_if pred v + 1)) v (find_if pred v)
            (find_if pred v + 1) := by
      simp [remove_if, h]
    obtain ⟨h1, h2, h3⟩ := remove_if_loop_spec pred (v.length - (find_if pred v + 1)) v
      (find_if pred v) (find_if pred v + 1) (by omega) (by omega)
    have hpre : (v.take (find_if pred v)).filter (fun e => !pred e)
        = v.take (find_if pred v) := by
      rw [List.filter_eq_self]
      intro e he
      simp [hbefore e he]
    have hfil : v.filter (fun e => !pred e)
        = v.take (find_if pred v)
            ++ (v.drop (find_if pred v + 1)).filter (fun e => !pred e) := by
      conv_lhs => rw [hsplit]
      rw [List.filter_append, hpre]
      simp [hx]
    rw [hr, hfil]
    refine ⟨h1, ?_, h3⟩
    rw [h2, List.length_append, List.length_take]
    omega

namespace EmployeeRepository

/-- `remove` in closed form: the records of the other identifiers, in their
previous order, and whether a record of the identifier was there. -/
theorem remove_eq (r : EmployeeRepository) (employeeID : Int) :
    r.remove employeeID
      = (⟨r.m_employees.filter (fun e => !(e.getEmployeeID == employeeID))⟩,
          decide (∃ e ∈ r.m_employees, e.getEmployeeID = employeeID)) := by
  obtain ⟨h1, h2, h3⟩ :=
    remove_if_spec (fun e => e.getEmployeeID == employeeID) r.m_employees
  by_cases hex : ∃ e ∈ r.m_employees, e.getEmployeeID = employeeID
  · have hlt : (r.m_employees.filter (fun e => !(e.getEmployeeID == employeeID))).length
        < r.m_employees.length := by
      obtain ⟨e, he, hid⟩ := hex
      apply List.length_filter_lt_length_iff_exists.2
      exact ⟨e, he, by simp [hid]⟩
    have hne : (remove_if (fun e => e.getEmployeeID == employeeID) r.m_employees).2
        ≠ (remove_if (fun e => e.getEmployeeID == employeeID) r.m_employees).1.length := by
      omega
    simp only [remove, hne, ne_eq, not_false_eq_true, if_true, h3, hex, decide_True]
  · have hall : ∀ e ∈ r.m_employees, (!(e.getEmployeeID == employeeID)) = true := by
      intro e he
      have : e.getEmployeeID ≠ employeeID := fun hid => hex ⟨e, he, hid⟩
      simpa using this
    have hfil : r.m_employees.filter (fun e => !(e.getEmployeeID == employeeID))
        = r.m_employees := List.filter_eq_self.2 hall
    rw [hfil] at h2 h3
    have hfull : (remove_if (fun e => e.getEmployeeID == employeeID) r.m_employees).1
        = r.m_employees := by
      have h4 := h3
      rw [h2, ← h1, List.take_length] at h4
      exact h4
    have heq : (remove_if (fun e => e.getEmployeeID == employeeID) r.m_employees).2
        = (remove_if (fun e => e.getEmployeeID == employeeID) r.m_employees).1.length := by
      omega
    simp only [remove, heq, ne_eq, not_true_eq_false, if_false, hfull, hfil, hex,
      decide_False]

/-- `add` in closed form. -/
theorem add_eq (r : EmployeeRepository) (employee : Employee) :
    r.add employee
      = if ∃ e ∈ r.m_employees, e.getEmployeeID = employee.getEmployeeID then (r, false)
        else (⟨r.m_employees ++ [employee]⟩, true) := by
  have h := find_if_ne_length_iff
    (fun e => e.getEmployeeID == employee.getEmployeeID) r.m_employees
  simp only [beq_iff_eq] at h
  by_cases hex : ∃ e ∈ r.m_employees, e.getEmployeeID = employee.getEmployeeID
  · simp only [add, h.2 hex, ne_eq, not_false_eq_true, if_true, hex]
  · have hne : ¬ (find_if (fun e => e.getEmployeeID == employee.getEmployeeID)
        r.m_employees ≠ r.m_employees.length) := fun hc => hex (h.1 hc)
    simp only [add, hne, if_false, hex]

end EmployeeRepository

end EmployeeSystem

/-! ## 6. The repository contract -/

namespace EmployeeSystem

namespace EmployeeRepository

theorem mem_remove (r : EmployeeRepository) (employeeID : Int) (e : Employee) :
    e ∈ (r.remove employeeID).1.m_employees
      ↔ e ∈ r.m_employees ∧ e.getEmployeeID ≠ employeeID := by
  simp [remove_eq, List.mem_filter]

theorem findById_eq_none_iff (r : EmployeeRepository) (employeeID : Int) :
    r.findById employeeID = none ↔ ∀ e ∈ r.m_employees, e.getEmployeeID ≠ employeeID := by
  have h := find_if_eq_length_iff (fun e => e.getEmployeeID == employeeID) r.m_employees
  simp only [beq_eq_false_iff_ne] at h
  by_cases hc : find_if (fun e => e.getEmployeeID == employeeID) r.m_employees
      = r.m_employees.length
  · simp only [findById, hc, ne_eq, not_true_eq_false, if_false, true_iff]
    exact h.1 hc
  · have hn : ¬ ∀ e ∈ r.m_employees, e.getEmployeeID ≠ employeeID := fun ha => hc (h.2 ha)
    simp only [findById, hc, ne_eq, not_false_eq_true, if_true, hn, iff_false]
    exact fun hcontra => Option.noConfusion hcontra

/-- A pointer returned by `findById` designates the first record of the
identifier asked for. -/
theorem findById_some (r : EmployeeRepository) (employeeID : Int) (p : Nat)
    (h : r.findById employeeID = some p) :
    ∃ e, r.deref p = some e ∧ e.getEmployeeID = employeeID ∧ p < r.m_employees.length
      ∧ r.m_employees = r.m_employees.take p ++ e :: r.m_employees.drop (p + 1)
      ∧ ∀ e1 ∈ r.m_employees.take p, e1.getEmployeeID ≠ employeeID := by
  by_cases hc : find_if (fun e => e.getEmployeeID == employeeID) r.m_employees
      = r.m_employees.length
  · simp [findById, hc] at h
  · have hp : find_if (fun e => e.getEmployeeID == employeeID) r.m_employees = p := by
      simpa [findById, hc] using h
    obtain ⟨x, h1, h2, h3, h4⟩ :=
      find_if_split (fun e => e.getEmployeeID == employeeID) r.m_employees hc
    rw [hp] at h1 h3 h4
    have hlt := lt_of_le_of_ne
      (find_if_le (fun e => e.getEmployeeID == employeeID) r.m_employees) hc
    rw [hp] at hlt
    refine ⟨x, h3, by simpa using h2, hlt, h1, ?_⟩
    intro e1 he1
    simpa using h4 e1 he1

theorem findById_isSome_of_mem (r : EmployeeRepository) (employeeID : Int)
    (h : ∃ e ∈ r.m_employees, e.getEmployeeID = employeeID) :
    ∃ p, r.findById employeeID = some p := by
  cases hf : r.findById employeeID with
  | some p => exact ⟨p, rfl⟩
  | none =>
    obtain ⟨e, he, hid⟩ := h
    exact absurd hid ((findById_eq_none_iff r employeeID).1 hf e he)

end EmployeeRepository

/-- C1: `add` returns `false` exactly when the repository already holds a
record whose identifier is that of the argument; the repository, and with it
what `getAll` returns, is then unchanged.  The scenario of the specification:
adding Ann with identifier 1 succeeds, adding Bob with identifier 1 fails, and
`getAll` has one record, named Ann. -/
theorem add_false_iff_duplicate (r : EmployeeRepository) (employee : Employee) :
    ((r.add employee).2 = false
        ↔ ∃ e ∈ r.getAll, e.getEmployeeID = employee.getEmployeeID)
    ∧ ((r.add employee).2 = false →
        (r.add employee).1 = r ∧ (r.add employee).1.getAll = r.getAll)
    ∧ (emptyRepository.add ⟨1, "Ann", 1000, "Eng"⟩).2 = true
    ∧ ((emptyRepository.add ⟨1, "Ann", 1000, "Eng"⟩).1.add ⟨1, "Bob", 500, "HR"⟩).2 = false
    ∧ ((emptyRepository.add ⟨1, "Ann", 1000, "Eng"⟩).1.add ⟨1, "Bob", 500, "HR"⟩).1.getAll
        = [⟨1, "Ann", 1000, "Eng"⟩] := by
  refine ⟨?_, ?_, ?_, ?_, ?_⟩
  · rw [EmployeeRepository.add_eq]
    by_cases h : ∃ e ∈ r.m_employees, e.getEmployeeID = employee.getEmployeeID
    · simp only [EmployeeRepository.getAll, h, if_true]
    · simp only [EmployeeRepository.getAll, h, if_false]
      simp
  · rw [EmployeeRepository.add_eq]
    by_cases h : ∃ e ∈ r.m_employees, e.getEmployeeID = employee.getEmployeeID
    · rw [if_pos h]
      exact fun _ => ⟨rfl, rfl⟩
    · rw [if_neg h]
      intro hc
      exact Bool.noConfusion hc
  · rfl
  · rfl
  · rfl

/-- C3: when no record of the repository has the identifier of the argument,
`add` returns `true` and the vector afterwards is the previous vector with the
argument appended at the end, one element longer. -/
theorem add_fresh_appends (r : EmployeeRepository) (employee : Employee)
    (hfresh : ∀ e ∈ r.getAll, e.getEmployeeID ≠ employee.getEmployeeID) :
    (r.add employee).2 = true
    ∧ (r.add employee).1.getAll = r.getAll ++ [employee]
    ∧ (r.add employee).1.getAll.length = r.getAll.length + 1
    ∧ (r.add employee).1.getAll.take r.getAll.length = r.getAll := by
  have h : ¬ ∃ e ∈ r.m_employees, e.getEmployeeID = employee.getEmployeeID := by
    rintro ⟨e, he, hid⟩
    exact hfresh e he hid
  rw [EmployeeRepository.add_eq]
  simp only [h, if_false, EmployeeRepository.getAll]
  simp

/-- Witness of C3: adding identifier 2 to a repository that holds identifier 1. -/
theorem add_fresh_appends_witness :
    ((EmployeeRepository.mk [⟨1, "Ann", 1000, "Eng"⟩]).add ⟨2, "Bob", 500, "HR"⟩).2 = true
    ∧ ((EmployeeRepository.mk [⟨1, "Ann", 1000, "Eng"⟩]).add ⟨2, "Bob", 500, "HR"⟩).1.getAll
        = [⟨1, "Ann", 1000, "Eng"⟩, ⟨2, "Bob", 500, "HR"⟩] :=
  have h := add_fresh_appends ⟨[⟨1, "Ann", 1000, "Eng"⟩]⟩ ⟨2, "Bob", 500, "HR"⟩
    (by
      intro e he
      simp only [EmployeeRepository.getAll, List.mem_singleton] at he
      subst he
      decide)
  ⟨h.1, h.2.1⟩

/-- C4: `remove` returns `true` if and only if the repository held a record of
the identifier; the vector afterwards is the previous vector with every record
of that identifier filtered out, the others unchanged and in their previous
order; when no record matches it returns `false` and the repository is
unchanged, as for `remove(99)` on the empty repository.  The last conjunct runs
the compaction on a vector holding the identifier twice. -/
theorem remove_filters (r : EmployeeRepository) (employeeID : Int) :
    ((r.remove employeeID).2 = true ↔ ∃ e ∈ r.getAll, e.getEmployeeID = employeeID)
    ∧ (r.remove employeeID).1.getAll
        = r.getAll.filter (fun e => decide (e.getEmployeeID ≠ employeeID))
    ∧ ((∀ e ∈ r.getAll, e.getEmployeeID ≠ employeeID) →
        r.remove employeeID = (r, false))
    ∧ emptyRepository.remove 99 = (emptyRepository, false)
    ∧ (EmployeeRepository.mk
          [⟨1, "Ann", 1000, "Eng"⟩, ⟨2, "Bob", 500, "HR"⟩, ⟨1, "Cy", 5, "QA"⟩,
           ⟨3, "Di", 7, "Ops"⟩]).remove 1
        = (⟨[⟨2, "Bob", 500, "HR"⟩, ⟨3, "Di", 7, "Ops"⟩]⟩, true) := by
  refine ⟨?_, ?_, ?_, ?_, rfl⟩
  · rw [EmployeeRepository.remove_eq]
    simp [EmployeeRepository.getAll]
  · rw [EmployeeRepository.remove_eq]
    simp only [EmployeeRepository.getAll]
    apply List.filter_congr
    intro e _
    by_cases hid : e.getEmployeeID = employeeID <;> simp [hid]
  · intro hall
    rw [EmployeeRepository.remove_eq]
    have hfil : r.m_employees.filter (fun e => !(e.getEmployeeID == employeeID))
        = r.m_employees := by
      rw [List.filter_eq_self]
      intro e he
      simpa using hall e he
    have hex : ¬ ∃ e ∈ r.m_employees, e.getEmployeeID = employeeID := by
      rintro ⟨e, he, hid⟩
      exact hall e he hid
    rw [hfil]
    simp only [hex, decide_False]
  · rfl

/-- C5: when the repository holds a record of the identifier, the first of two
consecutive `remove` calls returns `true`; for every repository the second
returns `false` and leaves the repository as the first call left it. -/
theorem remove_twice (r : EmployeeRepository) (employeeID : Int) :
    ((∃ e ∈ r.getAll, e.getEmployeeID = employeeID) →
        (r.remove employeeID).2 = true
        ∧ ((r.remove employeeID).1.remove employeeID).2 = false)
    ∧ ((r.remove employeeID).1.remove employeeID).2 = false
    ∧ ((r.remove employeeID).1.remove employeeID).1 = (r.remove employeeID).1 := by
  have hnone : ¬ ∃ e ∈ (r.remove employeeID).1.m_employees, e.getEmployeeID = employeeID := by
    rintro ⟨e, he, hid⟩
    exact ((EmployeeRepository.mem_remove r employeeID e).1 he).2 hid
  have hsecond : (r.remove employeeID).1.remove employeeID
      = ((r.remove employeeID).1, false) := by
    rw [EmployeeRepository.remove_eq (r.remove employeeID).1]
    have hfil : (r.remove employeeID).1.m_employees.filter
        (fun e => !(e.getEmployeeID == employeeID)) = (r.remove employeeID).1.m_employees := by
      rw [List.filter_eq_self]
      intro e he
      have : e.getEmployeeID ≠ employeeID := fun hid => hnone ⟨e, he, hid⟩
      simpa using this
    rw [hfil]
    simp only [hnone, decide_False]
  refine ⟨?_, ?_, ?_⟩
  · intro hex
    refine ⟨?_, by rw [hsecond]⟩
    rw [EmployeeRepository.remove_eq]
    simpa [EmployeeRepository.getAll] using hex
  · rw [hsecond]
  · rw [hsecond]

end EmployeeSystem

/-! ## 7. Updates through a pointer, the uniqueness invariant, the net salary -/

namespace EmployeeSystem

/-- Overwriting an element by one with the same image under `g` does not
change the images. -/
theorem map_set_same {β : Type} (g : Employee → β) (x : Employee) :
    ∀ (l : List Employee) (p : Nat) (e : Employee),
      l[p]? = some e → g x = g e → (l.set p x).map g = l.map g := by
  intro l
  induction l with
  | nil => intro p e h; simp at h
  | cons a rest ih =>
    intro p e h hx
    cases p with
    | zero =>
      have ha : a = e := by simpa using h
      simp [hx, ha]
    | succ p =>
      have hr : rest[p]? = some e := by simpa using h
      simp [ih p e hr hx]

/-- Overwriting an element by one on which the predicate has the same value
does not move the first match. -/
theorem find_if_set_same (pred : Employee → Bool) (x : Employee) :
    ∀ (l : List Employee) (p : Nat) (e : Employee),
      l[p]? = some e → pred x = pred e → find_if pred (l.set p x) = find_if pred l := by
  intro l p e h hx
  have hmap : (l.set p x).map pred = l.map pred := map_set_same pred x l p e h hx
  have key : ∀ (l1 l2 : List Employee), l1.map pred = l2.map pred →
      find_if pred l1 = find_if pred l2 := by
    intro l1
    induction l1 with
    | nil =>
      intro l2 h12
      cases l2 with
      | nil => rfl
      | cons b l2 => simp at h12
    | cons a l1 ih =>
      intro l2 h12
      cases l2 with
      | nil => simp at h12
      | cons b l2 =>
        simp only [List.map_cons, List.cons.injEq] at h12
        simp only [find_if, h12.1, ih l2 h12.2]
  exact key _ _ hmap

namespace EmployeeRepository

theorem mutate_of_deref (r : EmployeeRepository) (p : Nat) (e : Employee)
    (setter : Employee → Employee) (h : r.deref p = some e) :
    r.mutate p setter = ⟨r.m_employees.set p (setter e)⟩ := by
  have h1 : r.m_employees[p]? = some e := h
  simp only [mutate, h1]

theorem mutate_ids (r : EmployeeRepository) (p : Nat) (setter : Employee → Employee)
    (hid : ∀ e, (setter e).getEmployeeID = e.getEmployeeID) :
    (r.mutate p setter).m_employees.map Employee.getEmployeeID
      = r.m_employees.map Employee.getEmployeeID := by
  cases h : r.m_employees[p]? with
  | none => simp only [mutate, h]
  | some e =>
    simp only [mutate, h]
    exact map_set_same Employee.getEmployeeID (setter e) r.m_employees p e h (hid e)

theorem updateById_ids (r : EmployeeRepository) (employeeID : Int)
    (setter : Employee → Employee)
    (hid : ∀ e, (setter e).getEmployeeID = e.getEmployeeID) :
    (r.updateById employeeID setter).m_employees.map Employee.getEmployeeID
      = r.m_employees.map Employee.getEmployeeID := by
  cases h : r.findById employeeID with
  | none => simp only [updateById, h]
  | some p =>
    simp only [updateById, h]
    exact mutate_ids r p setter hid

theorem add_nodup (r : EmployeeRepository) (employee : Employee)
    (h : (r.m_employees.map Employee.getEmployeeID).Nodup) :
    ((r.add employee).1.m_employees.map Employee.getEmployeeID).Nodup := by
  rw [add_eq]
  by_cases hex : ∃ e ∈ r.m_employees, e.getEmployeeID = employee.getEmployeeID
  · rw [if_pos hex]
    exact h
  · rw [if_neg hex]
    simp only [List.map_append, List.map_cons, List.map_nil]
    rw [List.nodup_append]
    refine ⟨h, List.nodup_singleton _, ?_⟩
    intro a ha hb
    rw [List.mem_singleton] at hb
    obtain ⟨e, he, hea⟩ := List.mem_map.1 ha
    exact hex ⟨e, he, hea.trans hb⟩

theorem remove_nodup (r : EmployeeRepository) (employeeID : Int)
    (h : (r.m_employees.map Employee.getEmployeeID).Nodup) :
    ((r.remove employeeID).1.m_employees.map Employee.getEmployeeID).Nodup := by
  rw [remove_eq]
  exact h.sublist (List.Sublist.map _ (List.filter_sublist _))

theorem act_nodup (r : EmployeeRepository) (a : Action)
    (h : (r.m_employees.map Employee.getEmployeeID).Nodup) :
    ((r.act a).m_employees.map Employee.getEmployeeID).Nodup := by
  cases a with
  | call c =>
    cases c with
    | add employee => exact add_nodup r employee h
    | remove employeeID => exact remove_nodup r employeeID h
  | setSalary employeeID salary =>
    simp only [act]
    rw [updateById_ids r employeeID (fun e => e.setSalary salary) (fun _ => rfl)]
    exact h
  | setDepartment employeeID department =>
    simp only [act]
    rw [updateById_ids r employeeID (fun e => e.setDepartment department) (fun _ => rfl)]
    exact h

theorem actAll_nodup (actions : List Action) :
    ∀ r : EmployeeRepository, (r.m_employees.map Employee.getEmployeeID).Nodup →
      ((r.actAll actions).m_employees.map Employee.getEmployeeID).Nodup := by
  induction actions with
  | nil => intro r h; exact h
  | cons a rest ih =>
    intro r h
    exact ih (r.act a) (act_nodup r a h)

end EmployeeRepository

/-- C8: for a record with non-negative gross salary the net salary computed by
`display` is the gross salary times `1 - 0.10`, that is times `0.90`, exactly
nine tenths of it; it is computed from the current salary, so after
`setSalary` it is nine tenths of the new salary; and `display` streams
exactly that value. -/
theorem net_salary_is_ninety_percent (e : Employee) (hnonneg : 0 ≤ e.getSalary) :
    e.netSalary = e.getSalary * (1 - 0.10)
    ∧ e.netSalary = e.getSalary * 0.90
    ∧ e.netSalary = 9 * e.getSalary / 10
    ∧ 0 ≤ e.netSalary
    ∧ (∀ salary : ℚ, 0 ≤ salary → (e.setSalary salary).netSalary = salary * 0.90)
    ∧ (∀ cout, e.display cout = cout ++
        [Printed.text "  ID         : ", Printed.int e.getEmployeeID, Printed.endl,
         Printed.text "  Name       : ", Printed.text e.getName, Printed.endl,
         Printed.text "  Department : ", Printed.text e.getDepartment, Printed.endl,
         Printed.text "  Gross Salary: $", Printed.real e.getSalary, Printed.endl,
         Printed.text "  Net Salary (after 10% tax): $",
         Printed.real (e.getSalary * 0.90), Printed.endl]) := by
  have hnet : ∀ x : Employee, x.netSalary = x.m_salary * 0.90 := by
    intro x
    simp only [Employee.netSalary, Employee.TAX_RATE]
    norm_num
  simp only [Employee.getSalary] at hnonneg
  refine ⟨?_, ?_, ?_, ?_, ?_, ?_⟩
  · simp only [Employee.netSalary, Employee.TAX_RATE, Employee.getSalary]
  · exact hnet e
  · rw [hnet e]
    simp only [Employee.getSalary]
    norm_num
    ring
  · rw [hnet e]
    exact mul_nonneg hnonneg (by norm_num)
  · intro salary _
    rw [hnet]
    rfl
  · intro cout
    simp only [Employee.display, hnet e, Employee.getEmployeeID, Employee.getName,
      Employee.getDepartment, Employee.getSalary]

/-- Witness of C8: a gross salary of 2000 gives a net salary of 1800. -/
theorem net_salary_is_ninety_percent_witness :
    (Employee.mk 2 "Bob" 2000 "Eng").netSalary = 1800 := by
  have h := (net_salary_is_ninety_percent ⟨2, "Bob", 2000, "Eng"⟩
    (by simp [Employee.getSalary])).2.2.1
  rw [h]
  simp only [Employee.getSalary]
  norm_num

end EmployeeSystem

namespace EmployeeSystem

namespace EmployeeRepository

/-- What calling an identifier-preserving setter through the pointer of
`findById` does to the vector. -/
theorem mutate_frame (r : EmployeeRepository) (employeeID : Int) (p : Nat) (e : Employee)
    (setter : Employee → Employee)
    (hfind : r.findById employeeID = some p) (hderef : r.deref p = some e)
    (hid : (setter e).getEmployeeID = e.getEmployeeID) :
    (r.mutate p setter).getAll.length = r.getAll.length
    ∧ (r.mutate p setter).deref p = some (setter e)
    ∧ (∀ j, j ≠ p → (r.mutate p setter).deref j = r.deref j)
    ∧ (r.mutate p setter).findById employeeID = some p := by
  have hget : r.m_employees[p]? = some e := hderef
  have hlt : p < r.m_employees.length := by
    by_contra hc
    rw [List.getElem?_eq_none (by omega)] at hget
    exact Option.noConfusion hget
  rw [mutate_of_deref r p e setter hderef]
  refine ⟨?_, ?_, ?_, ?_⟩
  · simp [getAll]
  · simp only [deref]
    rw [List.getElem?_set_self hlt]
  · intro j hj
    simp only [deref]
    rw [List.getElem?_set_ne (Ne.symm hj)]
  · have hpred : (fun x : Employee => x.getEmployeeID == employeeID) (setter e)
        = (fun x : Employee => x.getEmployeeID == employeeID) e := by
      simp only [hid]
    have hsame := find_if_set_same (fun x => x.getEmployeeID == employeeID) (setter e)
      r.m_employees p e hget hpred
    have hf := hfind
    simp only [findById] at hf ⊢
    rw [hsame, List.length_set]
    exact hf

end EmployeeRepository

/-- C9: when the repository holds a record of the identifier, `findById`
returns a pointer to the first such record; calling `setSalary` (or
`setDepartment`) through it changes that field of that record only: identifier,
name and the other field stay, every other position, the order and the length
of the vector stay, a second `findById` returns the same pointer, which now
designates the record with the new value, whose net salary is nine tenths of
the new salary. -/
theorem update_through_lookup (r : EmployeeRepository) (employeeID : Int)
    (salary : ℚ) (department : String)
    (hmem : ∃ e ∈ r.getAll, e.getEmployeeID = employeeID) :
    ∃ p e, r.findById employeeID = some p ∧ r.deref p = some e
      ∧ e.getEmployeeID = employeeID
      ∧ (∀ j e1, j < p → r.deref j = some e1 → e1.getEmployeeID ≠ employeeID)
      ∧ r.updateById employeeID (fun x => x.setSalary salary)
          = r.mutate p (fun x => x.setSalary salary)
      ∧ (r.mutate p (fun x => x.setSalary salary)).getAll.length = r.getAll.length
      ∧ (r.mutate p (fun x => x.setSalary salary)).findById employeeID = some p
      ∧ (r.mutate p (fun x => x.setSalary salary)).deref p
          = some ⟨e.getEmployeeID, e.getName, salary, e.getDepartment⟩
      ∧ (∀ j, j ≠ p → (r.mutate p (fun x => x.setSalary salary)).deref j = r.deref j)
      ∧ (∀ e1, (r.mutate p (fun x => x.setSalary salary)).deref p = some e1 →
          e1.netSalary = salary * 0.90)
      ∧ r.updateById employeeID (fun x => x.setDepartment department)
          = r.mutate p (fun x => x.setDepartment department)
      ∧ (r.mutate p (fun x => x.setDepartment department)).getAll.length = r.getAll.length
      ∧ (r.mutate p (fun x => x.setDepartment department)).findById employeeID = some p
      ∧ (r.mutate p (fun x => x.setDepartment department)).deref p
          = some ⟨e.getEmployeeID, e.getName, e.getSalary, department⟩
      ∧ (∀ j, j ≠ p →
          (r.mutate p (fun x => x.setDepartment department)).deref j = r.deref j) := by
  obtain ⟨p, hfind⟩ := EmployeeRepository.findById_isSome_of_mem r employeeID hmem
  obtain ⟨e, hderef, hid, _, _, hbefore⟩ :=
    EmployeeRepository.findById_some r employeeID p hfind
  obtain ⟨s1, s2, s3, s4⟩ := EmployeeRepository.mutate_frame r employeeID p e
    (fun x => x.setSalary salary) hfind hderef rfl
  obtain ⟨d1, d2, d3, d4⟩ := EmployeeRepository.mutate_frame r employeeID p e
    (fun x => x.setDepartment department) hfind hderef rfl
  refine ⟨p, e, hfind, hderef, hid, ?_, ?_, s1, s4, s2, s3, ?_, ?_, d1, d4, d2, d3⟩
  · intro j e1 hj hj1
    apply hbefore
    have hj2 : r.m_employees[j]? = some e1 := hj1
    have hj3 : (r.m_employees.take p)[j]? = some e1 := by
      rw [List.getElem?_take, if_pos hj]
      exact hj2
    exact List.getElem?_mem hj3
  · simp only [EmployeeRepository.updateById, hfind]
  · intro e1 he1
    rw [s2] at he1
    have h1 : e1 = e.setSalary salary := (Option.some.inj he1).symm
    rw [h1]
    simp only [Employee.netSalary, Employee.setSalary, Employee.TAX_RATE]
    norm_num
  · simp only [EmployeeRepository.updateById, hfind]

/-- Witness of C9, the scenario of the specification: a record with identifier
2 is added, its salary is set to 2000 through `findById`, and the record then
looked up has a net salary of 1800. -/
theorem update_through_lookup_witness :
    ∃ p e, (emptyRepository.add ⟨2, "Bob", 500, "HR"⟩).1.findById 2 = some p
      ∧ (((emptyRepository.add ⟨2, "Bob", 500, "HR"⟩).1.mutate p
            (fun x => x.setSalary 2000)).findById 2 = some p)
      ∧ ((emptyRepository.add ⟨2, "Bob", 500, "HR"⟩).1.mutate p
            (fun x => x.setSalary 2000)).deref p = some e
      ∧ e.netSalary = 1800 := by
  obtain ⟨p, e, h1, _, _, _, _, _, h7, h8, _, h10, _⟩ :=
    update_through_lookup (emptyRepository.add ⟨2, "Bob", 500, "HR"⟩).1 2 2000 "Ops"
      ⟨⟨2, "Bob", 500, "HR"⟩, by
        rw [EmployeeRepository.add_eq]
        simp [emptyRepository, EmployeeRepository.getAll], rfl⟩
  refine ⟨p, _, h1, h7, h8, ?_⟩
  rw [h10 _ h8]
  norm_num

end EmployeeSystem

/-! ## 8. Sequences of `add` and `remove` calls -/

namespace EmployeeSystem

namespace EmployeeRepository

theorem performAll_snoc (r : EmployeeRepository) (calls : List Call) (c : Call) :
    r.performAll (calls ++ [c]) = (r.performAll calls).perform c := by
  simp [performAll, List.foldl_append]

theorem mem_add_of_mem (r : EmployeeRepository) (employee e : Employee)
    (h : e ∈ r.m_employees) : e ∈ (r.add employee).1.m_employees := by
  rw [add_eq]
  by_cases hex : ∃ e1 ∈ r.m_employees, e1.getEmployeeID = employee.getEmployeeID
  · rw [if_pos hex]
    exact h
  · rw [if_neg hex]
    exact List.mem_append_left _ h

theorem add_true_iff (r : EmployeeRepository) (employee : Employee) :
    (r.add employee).2 = true
      ↔ ¬ ∃ e ∈ r.m_employees, e.getEmployeeID = employee.getEmployeeID := by
  rw [add_eq]
  by_cases hex : ∃ e ∈ r.m_employees, e.getEmployeeID = employee.getEmployeeID
  · rw [if_pos hex]
    simp [hex]
  · rw [if_neg hex]
    simp [hex]

end EmployeeRepository

/-- The two ways a sequence ending in `c` splits around one of its `add` calls:
the `add` is the last call, or `c` is the last of the calls after it. -/
theorem snoc_split (calls : List Call) (c : Call) (before after : List Call) (e : Employee)
    (h : calls ++ [c] = before ++ Call.add e :: after) :
    (after = [] ∧ calls = before ∧ c = Call.add e)
    ∨ ∃ rest, after = rest ++ [c] ∧ calls = before ++ Call.add e :: rest := by
  rcases List.eq_nil_or_concat after with hnil | ⟨rest, b, hcons⟩
  · left
    subst hnil
    have h1 : calls ++ [c] = before ++ [Call.add e] := h
    obtain ⟨h2, h3⟩ := List.append_inj' h1 rfl
    exact ⟨rfl, h2, by simpa using h3⟩
  · right
    rw [List.concat_eq_append] at hcons
    subst hcons
    have h1 : calls ++ [c] = (before ++ Call.add e :: rest) ++ [b] := by
      rw [h]
      simp
    obtain ⟨h2, h3⟩ := List.append_inj' h1 rfl
    have h4 : c = b := by simpa using h3
    subst h4
    exact ⟨rest, rfl, h2⟩

/-- A record of the identifier is in the repository after the calls exactly
when some `add` of the identifier succeeded and no `remove` of it came later. -/
theorem mem_performAll_iff (employeeID : Int) (calls : List Call) :
    (∃ e ∈ (emptyRepository.performAll calls).m_employees, e.getEmployeeID = employeeID)
      ↔ AddedAndNotRemoved calls employeeID := by
  induction calls using List.reverseRecOn with
  | nil =>
    constructor
    · rintro ⟨e, he, _⟩
      simp [emptyRepository, EmployeeRepository.performAll] at he
    · rintro ⟨before, e, after, hc, _⟩
      simp at hc
  | append_singleton calls c ih =>
    rw [EmployeeRepository.performAll_snoc]
    cases c with
    | add e0 =>
      simp only [EmployeeRepository.perform]
      constructor
      · rintro ⟨e, he, hid⟩
        have hold : (∃ e ∈ (emptyRepository.performAll calls).m_employees,
            e.getEmployeeID = employeeID) → AddedAndNotRemoved (calls ++ [Call.add e0])
              employeeID := by
          intro hm
          obtain ⟨before, e1, after, hc, h1, h2, h3⟩ := ih.1 hm
          refine ⟨before, e1, after ++ [Call.add e0], ?_, h1, h2, ?_⟩
          · rw [hc]
            simp
          · simp [h3]
        rw [EmployeeRepository.add_eq] at he
        by_cases hex : ∃ e1 ∈ (emptyRepository.performAll calls).m_employees,
            e1.getEmployeeID = e0.getEmployeeID
        · rw [if_pos hex] at he
          exact hold ⟨e, he, hid⟩
        · rw [if_neg hex] at he
          rcases List.mem_append.1 he with hin | hlast
          · exact hold ⟨e, hin, hid⟩
          · rw [List.mem_singleton] at hlast
            subst hlast
            exact ⟨calls, e, [], rfl, hid,
              (EmployeeRepository.add_true_iff _ _).2 hex, by simp⟩
      · rintro ⟨before, e1, after, hc, h1, h2, h3⟩
        rcases snoc_split calls (Call.add e0) before after e1 hc with
          ⟨_, hb, he⟩ | ⟨rest, hafter, hcalls⟩
        · have he01 : e0 = e1 := by simpa using he
          subst he01
          subst hb
          have hex := (EmployeeRepository.add_true_iff _ _).1 h2
          refine ⟨e0, ?_, h1⟩
          rw [EmployeeRepository.add_eq, if_neg hex]
          simp
        · have hA : AddedAndNotRemoved calls employeeID := by
            refine ⟨before, e1, rest, hcalls, h1, h2, ?_⟩
            intro hm
            apply h3
            rw [hafter]
            exact List.mem_append_left _ hm
          obtain ⟨e, he, hid⟩ := ih.2 hA
          exact ⟨e, EmployeeRepository.mem_add_of_mem _ e0 e he, hid⟩
    | remove id0 =>
      simp only [EmployeeRepository.perform]
      constructor
      · rintro ⟨e, he, hid⟩
        obtain ⟨hin, hne⟩ := (EmployeeRepository.mem_remove _ id0 e).1 he
        obtain ⟨before, e1, after, hc, h1, h2, h3⟩ := ih.1 ⟨e, hin, hid⟩
        refine ⟨before, e1, after ++ [Call.remove id0], ?_, h1, h2, ?_⟩
        · rw [hc]
          simp
        · intro hm
          rcases List.mem_append.1 hm with hm1 | hm2
          · exact h3 hm1
          · rw [List.mem_singleton] at hm2
            have : employeeID = id0 := by simpa using hm2
            exact hne (hid.trans this)
      · rintro ⟨before, e1, after, hc, h1, h2, h3⟩
        rcases snoc_split calls (Call.remove id0) before after e1 hc with
          ⟨_, _, he⟩ | ⟨rest, hafter, hcalls⟩
        · exact Call.noConfusion he
        · have hne : employeeID ≠ id0 := by
            intro heq
            apply h3
            rw [hafter, heq]
            simp
          have hA : AddedAndNotRemoved calls employeeID := by
            refine ⟨before, e1, rest, hcalls, h1, h2, ?_⟩
            intro hm
            apply h3
            rw [hafter]
            exact List.mem_append_left _ hm
          obtain ⟨e, he, hid⟩ := ih.2 hA
          refine ⟨e, (EmployeeRepository.mem_remove _ id0 e).2 ⟨he, ?_⟩, hid⟩
          rw [hid]
          exact hne

/-- C6: after any sequence of `add` and `remove` calls on the empty
repository, `findById` returns a pointer to a record of the identifier asked
for if and only if some `add` of a record of that identifier succeeded and no
`remove` of the identifier came after it; otherwise it returns the null
pointer.  In particular a lookup right after `add` and `remove` of the same
identifier is null, as in the scenario with identifier 5. -/
theorem lookup_correct (calls : List Call) (employeeID : Int) :
    ((∃ p e, (emptyRepository.performAll calls).findById employeeID = some p
          ∧ (emptyRepository.performAll calls).deref p = some e
          ∧ e.getEmployeeID = employeeID)
        ↔ AddedAndNotRemoved calls employeeID)
    ∧ ((emptyRepository.performAll calls).findById employeeID = none
        ↔ ¬ AddedAndNotRemoved calls employeeID)
    ∧ (∀ e : Employee,
        (emptyRepository.performAll
          (calls ++ [Call.add e, Call.remove e.getEmployeeID])).findById e.getEmployeeID
          = none)
    ∧ (emptyRepository.add ⟨5, "Eve", 700, "Ops"⟩).2 = true
    ∧ ((emptyRepository.add ⟨5, "Eve", 700, "Ops"⟩).1.remove 5).2 = true
    ∧ ((emptyRepository.add ⟨5, "Eve", 700, "Ops"⟩).1.remove 5).1.findById 5 = none := by
  have hnone : (emptyRepository.performAll calls).findById employeeID = none
      ↔ ¬ AddedAndNotRemoved calls employeeID := by
    rw [← mem_performAll_iff, EmployeeRepository.findById_eq_none_iff]
    constructor
    · rintro h ⟨e, he, hid⟩
      exact h e he hid
    · intro h e he hid
      exact h ⟨e, he, hid⟩
  refine ⟨?_, hnone, ?_, rfl, rfl, rfl⟩
  · constructor
    · rintro ⟨p, e, hp, _, _⟩
      by_contra hA
      rw [hnone.2 hA] at hp
      exact Option.noConfusion hp
    · intro hA
      obtain ⟨p, hp⟩ := EmployeeRepository.findById_isSome_of_mem _ employeeID
        ((mem_performAll_iff employeeID calls).2 hA)
      obtain ⟨e, h1, h2, _⟩ := EmployeeRepository.findById_some _ employeeID p hp
      exact ⟨p, e, hp, h1, h2⟩
  · intro e
    have hsplit : calls ++ [Call.add e, Call.remove e.getEmployeeID]
        = (calls ++ [Call.add e]) ++ [Call.remove e.getEmployeeID] := by simp
    rw [hsplit, EmployeeRepository.performAll_snoc, EmployeeRepository.findById_eq_none_iff]
    intro e1 he1
    exact ((EmployeeRepository.mem_remove _ _ e1).1 he1).2

end EmployeeSystem

namespace EmployeeSystem

/-- A further call at the end changes the contribution of an earlier position
only by removing it when the call is a `remove` of its identifier. -/
theorem keptAt_snoc_of_lt (calls : List Call) (c : Call) (k : Nat) (hk : k < calls.length) :
    keptAt (calls ++ [c]) k
      = (keptAt calls k).filter (fun e => decide (c ≠ Call.remove e.getEmployeeID)) := by
  have h1 : (calls ++ [c])[k]? = calls[k]? := List.getElem?_append_left hk
  have h2 : (calls ++ [c]).take k = calls.take k :=
    List.take_append_of_le_length (by omega)
  have h3 : (calls ++ [c]).drop (k + 1) = calls.drop (k + 1) ++ [c] :=
    List.drop_append_of_le_length (by omega)
  simp only [keptAt, h1, h2, h3]
  cases hget : calls[k]? with
  | none => rfl
  | some call =>
    cases call with
    | remove id0 => rfl
    | add e =>
      simp only [List.mem_append, List.mem_singleton, not_or]
      by_cases hs : ((emptyRepository.performAll (calls.take k)).add e).2 = true
      · by_cases hd : Call.remove e.getEmployeeID ∈ calls.drop (k + 1)
        · simp [hs, hd, Option.filter]
        · by_cases hc : c = Call.remove e.getEmployeeID
          · simp [hs, hd, hc, Option.filter]
          · have hc1 : ¬ Call.remove e.getEmployeeID = c := fun h => hc h.symm
            simp [hs, hd, hc, hc1, Option.filter]
      · simp [hs, Option.filter]

/-- The contribution of the last call: the record of an `add` that succeeds. -/
theorem keptAt_snoc_last (calls : List Call) (c : Call) :
    keptAt (calls ++ [c]) calls.length
      = match c with
        | Call.add e =>
          if ((emptyRepository.performAll calls).add e).2 = true then some e else none
        | Call.remove _ => none := by
  have h1 : (calls ++ [c])[calls.length]? = some c := by simp
  have h2 : (calls ++ [c]).take calls.length = calls := by simp
  have h3 : (calls ++ [c]).drop (calls.length + 1) = [] := by simp
  simp only [keptAt, h1, h2, h3]
  cases c with
  | add e => simp
  | remove id0 => rfl

theorem filterMap_keptAt_snoc (calls : List Call) (c : Call) :
    ∀ ks : List Nat, (∀ k ∈ ks, k < calls.length) →
      ks.filterMap (keptAt (calls ++ [c]))
        = (ks.filterMap (keptAt calls)).filter
            (fun e => decide (c ≠ Call.remove e.getEmployeeID)) := by
  intro ks
  induction ks with
  | nil => intro _; rfl
  | cons k ks ih =>
    intro hks
    have hk : k < calls.length := hks k (List.mem_cons_self _ _)
    have hrest := ih (fun j hj => hks j (List.mem_cons_of_mem _ hj))
    rw [List.filterMap_cons, List.filterMap_cons, keptAt_snoc_of_lt calls c k hk, hrest]
    cases hget : keptAt calls k with
    | none => simp [Option.filter]
    | some e =>
      by_cases hc : c = Call.remove e.getEmployeeID
      · simp [Option.filter, hc]
      · simp [Option.filter, hc]

theorem addedAndKept_snoc (calls : List Call) (c : Call) :
    addedAndKept (calls ++ [c])
      = (addedAndKept calls).filter (fun e => decide (c ≠ Call.remove e.getEmployeeID))
        ++ (keptAt (calls ++ [c]) calls.length).toList := by
  have hlen : (calls ++ [c]).length = calls.length + 1 := by simp
  simp only [addedAndKept, hlen, List.range_succ, List.filterMap_append]
  rw [filterMap_keptAt_snoc calls c (List.range calls.length)
    (fun k hk => List.mem_range.1 hk)]
  have hlast : List.filterMap (keptAt (calls ++ [c])) [calls.length]
      = (keptAt (calls ++ [c]) calls.length).toList := by
    cases h : keptAt (calls ++ [c]) calls.length <;> simp [List.filterMap_cons, h]
  rw [hlast]

/-- C7: after any sequence of `add` and `remove` calls on the empty
repository, `getAll` returns exactly the records whose `add` succeeded and that
were not removed afterwards, in the order in which those `add` calls were
made.  The second conjunct evaluates that list on a sequence with a rejected
duplicate, a removal, a re-insertion and a removed late-comer. -/
theorem getAll_order_preserved (calls : List Call) :
    (emptyRepository.performAll calls).getAll = addedAndKept calls
    ∧ addedAndKept
        [Call.add ⟨1, "Ann", 1000, "Eng"⟩, Call.add ⟨2, "Bob", 500, "HR"⟩,
         Call.add ⟨1, "Cy", 5, "QA"⟩, Call.remove 1, Call.add ⟨1, "Cy", 5, "QA"⟩,
         Call.add ⟨3, "Di", 7, "Ops"⟩, Call.remove 3]
        = [⟨2, "Bob", 500, "HR"⟩, ⟨1, "Cy", 5, "QA"⟩] := by
  refine ⟨?_, by decide⟩
  induction calls using List.reverseRecOn with
  | nil => rfl
  | append_singleton calls c ih =>
    simp only [EmployeeRepository.getAll] at ih ⊢
    rw [EmployeeRepository.performAll_snoc, addedAndKept_snoc, keptAt_snoc_last, ← ih]
    cases c with
    | add e0 =>
      have hfil : (emptyRepository.performAll calls).m_employees.filter
          (fun e => decide (Call.add e0 ≠ Call.remove e.getEmployeeID))
          = (emptyRepository.performAll calls).m_employees := by
        rw [List.filter_eq_self]
        intro e _
        simp
      simp only [EmployeeRepository.perform]
      rw [hfil, EmployeeRepository.add_eq]
      by_cases hex : ∃ e ∈ (emptyRepository.performAll calls).m_employees,
          e.getEmployeeID = e0.getEmployeeID
      · simp [hex]
      · simp [hex]
    | remove id0 =>
      simp only [EmployeeRepository.perform]
      rw [EmployeeRepository.remove_eq]
      simp only [Option.toList, List.append_nil]
      apply List.filter_congr
      intro e _
      by_cases hid : e.getEmployeeID = id0
      · simp [hid]
      · have hid1 : ¬ id0 = e.getEmployeeID := fun h => hid h.symm
        simp [hid, hid1]

end EmployeeSystem

/-! ## 9. The menu loop -/

namespace EmployeeSystem

theorem getIntegerInput_value (l : Line) (rest : List Line) (cout : List Printed) (c : Int)
    (hread : l.asInt = Extract.value c) :
    getIntegerInput (l :: rest) cout = some (c, rest, cout) := by
  simp only [getIntegerInput, hread]

theorem switchChoice_exit (w : World) :
    switchChoice 5 w
      = some ⟨w.repository, w.cin,
          w.cout ++ [Printed.text "Exiting application. Goodbye!", Printed.endl]⟩ := by
  simp [switchChoice]

theorem switchChoice_invalid (c : Int) (w : World) (hc : c < 1 ∨ 5 < c) :
    switchChoice c w
      = some ⟨w.repository, w.cin,
          w.cout ++ [Printed.text "Invalid choice. Please try again.", Printed.endl]⟩ := by
  have h1 : c ≠ 1 := by omega
  have h2 : c ≠ 2 := by omega
  have h3 : c ≠ 3 := by omega
  have h4 : c ≠ 4 := by omega
  have h5 : c ≠ 5 := by omega
  simp only [switchChoice, h1, h2, h3, h4, h5, if_false]

end EmployeeSystem

namespace EmployeeSystem

theorem getIntegerInput_consumes :
    ∀ (cin : List Line) (cout : List Printed) (v : Int) (cin1 : List Line)
      (cout1 : List Printed),
      getIntegerInput cin cout = some (v, cin1, cout1) → cin1.length < cin.length := by
  intro cin
  induction cin with
  | nil => intro cout v cin1 cout1 h; simp [getIntegerInput] at h
  | cons l rest ih =>
    intro cout v cin1 cout1 h
    simp only [getIntegerInput] at h
    cases hl : l.asInt with
    | value x =>
      rw [hl] at h
      simp only [Option.some.injEq, Prod.mk.injEq] at h
      rw [← h.2.1]
      simp
    | blank =>
      rw [hl] at h
      have := ih _ _ _ _ h
      simp only [List.length_cons]
      omega
    | failed =>
      rw [hl] at h
      have := ih _ _ _ _ h
      simp only [List.length_cons]
      omega

theorem getDoubleInput_consumes :
    ∀ (cin : List Line) (cout : List Printed) (v : ℚ) (cin1 : List Line)
      (cout1 : List Printed),
      getDoubleInput cin cout = some (v, cin1, cout1) → cin1.length < cin.length := by
  intro cin
  induction cin with
  | nil => intro cout v cin1 cout1 h; simp [getDoubleInput] at h
  | cons l rest ih =>
    intro cout v cin1 cout1 h
    simp only [getDoubleInput] at h
    cases hl : l.asDouble with
    | value x =>
      rw [hl] at h
      simp only [Option.some.injEq, Prod.mk.injEq] at h
      rw [← h.2.1]
      simp
    | blank =>
      rw [hl] at h
      have := ih _ _ _ _ h
      simp only [List.length_cons]
      omega
    | failed =>
      rw [hl] at h
      have := ih _ _ _ _ h
      simp only [List.length_cons]
      omega

theorem getline_length (cin : List Line) : (getline cin).2.length ≤ cin.length := by
  cases cin with
  | nil => simp [getline]
  | cons l rest => simp [getline]

theorem getlineSkippingEmpty_length (cin : List Line) :
    (getlineSkippingEmpty cin).2.length ≤ cin.length := by
  unfold getlineSkippingEmpty
  have h1 := getline_length cin
  have h2 := getline_length (getline cin).2
  by_cases he : (getline cin).1 = ""
  · simp only [he, if_true]
    omega
  · simp only [he, if_false]
    exact h1

theorem handleAddEmployee_consumes (w w1 : World) (h : handleAddEmployee w = some w1) :
    w1.cin.length < w.cin.length := by
  simp only [handleAddEmployee] at h
  split at h
  · exact Option.noConfusion h
  · rename_i id cin1 cout1 h1
    have c1 := getIntegerInput_consumes _ _ _ _ _ h1
    have c2 := getlineSkippingEmpty_length cin1
    split at h
    · exact Option.noConfusion h
    · rename_i salary cin2 cout2 h2
      have c3 := getDoubleInput_consumes _ _ _ _ _ h2
      have c4 := getlineSkippingEmpty_length cin2
      split at h
      · simp only [Option.some.injEq] at h
        rw [← h]
        simp only
        omega
      · simp only [Option.some.injEq] at h
        rw [← h]
        simp only
        omega

theorem handleUpdateEmployee_consumes (w w1 : World) (h : handleUpdateEmployee w = some w1) :
    w1.cin.length < w.cin.length := by
  simp only [handleUpdateEmployee] at h
  split at h
  · exact Option.noConfusion h
  · rename_i id cin1 cout1 h1
    have c1 := getIntegerInput_consumes _ _ _ _ _ h1
    split at h
    · simp only [Option.some.injEq] at h
      rw [← h]
      exact c1
    · split at h
      · exact Option.noConfusion h
      · rename_i choice cin2 cout2 h2
        have c2 := getIntegerInput_consumes _ _ _ _ _ h2
        split at h
        · split at h
          · exact Option.noConfusion h
          · rename_i salary cin3 cout3 h3
            have c3 := getDoubleInput_consumes _ _ _ _ _ h3
            simp only [Option.some.injEq] at h
            rw [← h]
            simp only
            omega
        · have c4 := getlineSkippingEmpty_length cin2
          split at h
          · simp only [Option.some.injEq] at h
            rw [← h]
            simp only
            omega
          · simp only [Option.some.injEq] at h
            rw [← h]
            simp only
            omega

theorem handleDeleteEmployee_consumes (w w1 : World) (h : handleDeleteEmployee w = some w1) :
    w1.cin.length < w.cin.length := by
  simp only [handleDeleteEmployee] at h
  split at h
  · exact Option.noConfusion h
  · rename_i id cin1 cout1 h1
    have c1 := getIntegerInput_consumes _ _ _ _ _ h1
    split at h
    · simp only [Option.some.injEq] at h
      rw [← h]
      exact c1
    · simp only [Option.some.injEq] at h
      rw [← h]
      exact c1

theorem handleViewEmployees_cin (w : World) : (handleViewEmployees w).cin = w.cin := by
  simp only [handleViewEmployees]
  split <;> rfl

theorem switchChoice_length (c : Int) (w w1 : World) (h : switchChoice c w = some w1) :
    w1.cin.length ≤ w.cin.length := by
  simp only [switchChoice] at h
  split at h
  · exact Nat.le_of_lt (handleAddEmployee_consumes w w1 h)
  · split at h
    · simp only [Option.some.injEq] at h
      rw [← h, handleViewEmployees_cin]
    · split at h
      · exact Nat.le_of_lt (handleUpdateEmployee_consumes w w1 h)
      · split at h
        · exact Nat.le_of_lt (handleDeleteEmployee_consumes w w1 h)
        · split at h
          · simp only [Option.some.injEq] at h
            rw [← h]
          · simp only [Option.some.injEq] at h
            rw [← h]

/-- A pass after which the loop goes on has consumed at least one line. -/
theorem mainIteration_consumes (w w1 : World) (h : mainIteration w = Step.again w1) :
    w1.cin.length < w.cin.length := by
  simp only [mainIteration] at h
  split at h
  · exact Step.noConfusion h
  · rename_i choice cin1 cout1 h1
    have c1 := getIntegerInput_consumes _ _ _ _ _ h1
    split at h
    · exact Step.noConfusion h
    · rename_i w2 h2
      have c2 := switchChoice_length _ _ _ h2
      split at h
      · simp only [Step.again.injEq] at h
        rw [← h]
        simp only at c2
        omega
      · exact Step.noConfusion h

/-- A pass that ends the loop returns 0. -/
theorem mainIteration_exit_code (w w1 : World) (code : Int)
    (h : mainIteration w = Step.exit code w1) : code = 0 := by
  simp only [mainIteration] at h
  split at h
  · exact Step.noConfusion h
  · split at h
    · exact Step.noConfusion h
    · split at h
      · exact Step.noConfusion h
      · simp only [Step.exit.injEq] at h
        exact h.1.symm

/-- With more passes allowed than there are lines of input the loop comes to
an end: it is never cut short by the bound. -/
theorem mainLoop_finishes :
    ∀ (passes : Nat) (w : World), w.cin.length < passes →
      mainLoop passes w ≠ Outcome.unfinished
      ∧ ∀ code w1, mainLoop passes w = Outcome.exited code w1 → code = 0 := by
  intro passes
  induction passes with
  | zero => intro w hw; omega
  | succ n ih =>
    intro w hw
    simp only [mainLoop]
    cases hstep : mainIteration w with
    | again w1 =>
      have hlt := mainIteration_consumes w w1 hstep
      exact ih w1 (by omega)
    | exit code w1 =>
      refine ⟨fun hc => Outcome.noConfusion hc, ?_⟩
      intro code1 w2 heq
      simp only [Outcome.exited.injEq] at heq
      rw [← heq.1]
      exact mainIteration_exit_code w w1 code hstep
    | stuck =>
      exact ⟨fun hc => Outcome.noConfusion hc, fun _ _ hc => Outcome.noConfusion hc⟩

/-- The run of `main` is never cut short by the bound on the passes, and when
`main` returns it returns 0. -/
theorem main_finishes (cin : List Line) :
    main cin ≠ Outcome.unfinished
    ∧ ∀ code w, main cin = Outcome.exited code w → code = 0 :=
  mainLoop_finishes (cin.length + 1) ⟨emptyRepository, cin, []⟩ (Nat.lt_succ_self _)

end EmployeeSystem

namespace EmployeeSystem

theorem handleAddEmployee_acts (w w1 : World) (h : handleAddEmployee w = some w1) :
    ∃ e, w1.repository = w.repository.act (Action.call (Call.add e)) := by
  simp only [handleAddEmployee] at h
  split at h
  · exact Option.noConfusion h
  · split at h
    · exact Option.noConfusion h
    · split at h
      · simp only [Option.some.injEq] at h
        rw [← h]
        exact ⟨_, rfl⟩
      · simp only [Option.some.injEq] at h
        rw [← h]
        exact ⟨_, rfl⟩

theorem handleDeleteEmployee_acts (w w1 : World) (h : handleDeleteEmployee w = some w1) :
    ∃ employeeID, w1.repository = w.repository.act (Action.call (Call.remove employeeID)) := by
  simp only [handleDeleteEmployee] at h
  split at h
  · exact Option.noConfusion h
  · split at h
    · simp only [Option.some.injEq] at h
      rw [← h]
      exact ⟨_, rfl⟩
    · simp only [Option.some.injEq] at h
      rw [← h]
      exact ⟨_, rfl⟩

/-- The update handler leaves the repository as it is or applies one of the
two setters to the record `findById` returns. -/
theorem handleUpdateEmployee_acts (w w1 : World) (h : handleUpdateEmployee w = some w1) :
    w1.repository = w.repository
    ∨ (∃ employeeID salary,
        w1.repository = w.repository.act (Action.setSalary employeeID salary))
    ∨ ∃ employeeID department,
        w1.repository = w.repository.act (Action.setDepartment employeeID department) := by
  simp only [handleUpdateEmployee] at h
  split at h
  · exact Option.noConfusion h
  · rename_i id cin1 cout1 h1
    split at h
    · simp only [Option.some.injEq] at h
      rw [← h]
      exact Or.inl rfl
    · rename_i employeePtr hfind
      split at h
      · exact Option.noConfusion h
      · split at h
        · split at h
          · exact Option.noConfusion h
          · rename_i salary cin3 cout3 h3
            simp only [Option.some.injEq] at h
            rw [← h]
            refine Or.inr (Or.inl ⟨id, salary, ?_⟩)
            simp only [EmployeeRepository.act, EmployeeRepository.updateById, hfind]
        · split at h
          · rename_i choice cin2 cout2 h2 hne1 heq2
            simp only [Option.some.injEq] at h
            rw [← h]
            refine Or.inr (Or.inr ⟨id, (getlineSkippingEmpty cin2).1, ?_⟩)
            simp only [EmployeeRepository.act, EmployeeRepository.updateById, hfind]
          · simp only [Option.some.injEq] at h
            rw [← h]
            exact Or.inl rfl

theorem handleViewEmployees_repository (w : World) :
    (handleViewEmployees w).repository = w.repository := by
  simp only [handleViewEmployees]
  split <;> rfl

/-- Whatever the selection, the `switch` changes the repository by a sequence
of client actions (none or one). -/
theorem switchChoice_acts (c : Int) (w w1 : World) (h : switchChoice c w = some w1) :
    ∃ actions, w1.repository = w.repository.actAll actions := by
  simp only [switchChoice] at h
  split at h
  · obtain ⟨e, he⟩ := handleAddEmployee_acts w w1 h
    exact ⟨[Action.call (Call.add e)], he⟩
  · split at h
    · simp only [Option.some.injEq] at h
      rw [← h, handleViewEmployees_repository]
      exact ⟨[], rfl⟩
    · split at h
      · rcases handleUpdateEmployee_acts w w1 h with hu | ⟨i, s, hu⟩ | ⟨i, d, hu⟩
        · exact ⟨[], hu⟩
        · exact ⟨[Action.setSalary i s], hu⟩
        · exact ⟨[Action.setDepartment i d], hu⟩
      · split at h
        · obtain ⟨i, hi⟩ := handleDeleteEmployee_acts w w1 h
          exact ⟨[Action.call (Call.remove i)], hi⟩
        · split at h
          · simp only [Option.some.injEq] at h
            rw [← h]
            exact ⟨[], rfl⟩
          · simp only [Option.some.injEq] at h
            rw [← h]
            exact ⟨[], rfl⟩

theorem mainIteration_acts (w : World) :
    (∀ w1, mainIteration w = Step.again w1 →
        ∃ actions, w1.repository = w.repository.actAll actions)
    ∧ ∀ code w1, mainIteration w = Step.exit code w1 →
        ∃ actions, w1.repository = w.repository.actAll actions := by
  constructor
  · intro w1 h
    simp only [mainIteration] at h
    split at h
    · exact Step.noConfusion h
    · split at h
      · exact Step.noConfusion h
      · rename_i w2 h2
        split at h
        · simp only [Step.again.injEq] at h
          rw [← h]
          have hacts := switchChoice_acts _ _ _ h2
          exact hacts
        · exact Step.noConfusion h
  · intro code w1 h
    simp only [mainIteration] at h
    split at h
    · exact Step.noConfusion h
    · split at h
      · exact Step.noConfusion h
      · rename_i w2 h2
        split at h
        · exact Step.noConfusion h
        · simp only [Step.exit.injEq] at h
          rw [← h.2]
          have hacts := switchChoice_acts _ _ _ h2
          exact hacts

/-- The repository `main` holds when it returns is reached from the one it
started with by a sequence of client actions. -/
theorem mainLoop_acts :
    ∀ (passes : Nat) (w : World) (code : Int) (w1 : World),
      mainLoop passes w = Outcome.exited code w1 →
      ∃ actions, w1.repository = w.repository.actAll actions := by
  intro passes
  induction passes with
  | zero =>
    intro w code w1 h
    exact Outcome.noConfusion h
  | succ n ih =>
    intro w code w1 h
    simp only [mainLoop] at h
    cases hstep : mainIteration w with
    | again w2 =>
      rw [hstep] at h
      obtain ⟨a1, h1⟩ := (mainIteration_acts w).1 w2 hstep
      obtain ⟨a2, h2⟩ := ih w2 code w1 h
      refine ⟨a1 ++ a2, ?_⟩
      rw [h2, h1]
      simp [EmployeeRepository.actAll, List.foldl_append]
    | exit code2 w2 =>
      rw [hstep] at h
      simp only [Outcome.exited.injEq] at h
      rw [← h.2]
      exact (mainIteration_acts w).2 code2 w2 hstep
    | stuck =>
      rw [hstep] at h
      exact Outcome.noConfusion h

end EmployeeSystem

/-! ## 10. The invariant and the menu dispatch on the running program -/

namespace EmployeeSystem

/-- C2: in every repository reached from the empty one by a finite sequence of
`add`, `remove` and setter calls through `findById`, no two records share an
identifier: the identifiers listed by `getAll` are pairwise distinct, and two
positions holding the same identifier are the same position.  The repository
`main` holds when it returns is such a repository. -/
theorem reachable_ids_unique (actions : List Action) :
    ((emptyRepository.actAll actions).getAll.map Employee.getEmployeeID).Nodup
    ∧ (∀ (i j : Nat) (e1 e2 : Employee),
        (emptyRepository.actAll actions).getAll[i]? = some e1 →
        (emptyRepository.actAll actions).getAll[j]? = some e2 →
        e1.getEmployeeID = e2.getEmployeeID → i = j)
    ∧ ∀ cin code w, main cin = Outcome.exited code w →
        (w.repository.getAll.map Employee.getEmployeeID).Nodup := by
  have hnd : ((emptyRepository.actAll actions).m_employees.map Employee.getEmployeeID).Nodup :=
    EmployeeRepository.actAll_nodup actions emptyRepository (by simp [emptyRepository])
  refine ⟨hnd, ?_, ?_⟩
  swap
  · intro cin code w hmain
    obtain ⟨acts, hacts⟩ := mainLoop_acts _ _ code w hmain
    simp only [EmployeeRepository.getAll]
    rw [hacts]
    exact EmployeeRepository.actAll_nodup acts emptyRepository (by simp [emptyRepository])
  intro i j e1 e2 h1 h2 hid
  simp only [EmployeeRepository.getAll] at h1 h2
  have hi : ((emptyRepository.actAll actions).m_employees.map Employee.getEmployeeID)[i]?
      = some e1.getEmployeeID := by
    rw [List.getElem?_map, h1]
    rfl
  have hj : ((emptyRepository.actAll actions).m_employees.map Employee.getEmployeeID)[j]?
      = some e1.getEmployeeID := by
    rw [List.getElem?_map, h2, hid]
    rfl
  have hil : i < ((emptyRepository.actAll actions).m_employees.map
      Employee.getEmployeeID).length := by
    by_contra hc
    rw [List.getElem?_eq_none (by omega)] at hi
    exact Option.noConfusion hi
  have hjl : j < ((emptyRepository.actAll actions).m_employees.map
      Employee.getEmployeeID).length := by
    by_contra hc
    rw [List.getElem?_eq_none (by omega)] at hj
    exact Option.noConfusion hj
  rw [List.getElem?_eq_getElem hil] at hi
  rw [List.getElem?_eq_getElem hjl] at hj
  exact (List.Nodup.getElem_inj_iff hnd).1 ((Option.some.inj hi).trans (Option.some.inj hj).symm)

/-- C10: one pass through the loop of `main` in which the selection `c` is
read ends the loop, with exit code 0, if and only if `c = 5`; the repository is
then unchanged.  For `c` outside 1..5 the pass prints the invalid-choice
message, leaves the repository unchanged and the loop goes on.  On the
selections 6 then 5 `main` prints the menu, rejects 6, prints the menu again
and returns 0 on 5; a non-numeric line before them is re-prompted.  The run of
`main` is never cut short by the bound on the passes, and `main` returns
nothing but 0. -/
theorem menu_dispatch (r : EmployeeRepository) (l : Line) (rest : List Line)
    (cout : List Printed) (c : Int) (hread : l.asInt = Extract.value c) :
    ((∃ code w, mainIteration ⟨r, l :: rest, cout⟩ = Step.exit code w) ↔ c = 5)
    ∧ ((∃ w, mainIteration ⟨r, l :: rest, cout⟩ = Step.exit 0 w) ↔ c = 5)
    ∧ (c = 5 →
        mainIteration ⟨r, l :: rest, cout⟩
          = Step.exit 0 ⟨r, rest,
              showMenu cout ++ [Printed.text "Exiting application. Goodbye!", Printed.endl]⟩)
    ∧ ((c < 1 ∨ 5 < c) →
        mainIteration ⟨r, l :: rest, cout⟩
          = Step.again ⟨r, rest,
              showMenu cout
                ++ [Printed.text "Invalid choice. Please try again.", Printed.endl]⟩)
    ∧ main [⟨"6", Extract.value 6, Extract.value 6⟩, ⟨"5", Extract.value 5, Extract.value 5⟩]
        = Outcome.exited 0 ⟨emptyRepository, [],
            showMenu
              (showMenu [] ++ [Printed.text "Invalid choice. Please try again.", Printed.endl])
            ++ [Printed.text "Exiting application. Goodbye!", Printed.endl]⟩
    ∧ main [⟨"x", Extract.failed, Extract.failed⟩,
            ⟨"6", Extract.value 6, Extract.value 6⟩, ⟨"5", Extract.value 5, Extract.value 5⟩]
        = Outcome.exited 0 ⟨emptyRepository, [],
            showMenu
              (showMenu [] ++ [Printed.text "Invalid input. Please enter a whole number: "]
                ++ [Printed.text "Invalid choice. Please try again.", Printed.endl])
            ++ [Printed.text "Exiting application. Goodbye!", Printed.endl]⟩
    ∧ (∀ input, main input ≠ Outcome.unfinished)
    ∧ (∀ input code w, main input = Outcome.exited code w → code = 0) := by
  have hget := getIntegerInput_value l rest (showMenu cout) c hread
  have hfive : c = 5 →
      mainIteration ⟨r, l :: rest, cout⟩
        = Step.exit 0 ⟨r, rest,
            showMenu cout ++ [Printed.text "Exiting application. Goodbye!", Printed.endl]⟩ := by
    intro h5
    subst h5
    simp only [mainIteration, hget, switchChoice_exit]
    simp
  have hexit : ∀ code w, mainIteration ⟨r, l :: rest, cout⟩ = Step.exit code w → c = 5 := by
    intro code w hstep
    by_contra h5
    simp only [mainIteration, hget] at hstep
    cases hsw : switchChoice c ⟨r, rest, showMenu cout⟩ with
    | none =>
      rw [hsw] at hstep
      exact Step.noConfusion hstep
    | some w1 =>
      rw [hsw] at hstep
      simp only [ne_eq, h5, not_false_eq_true, if_true] at hstep
      exact Step.noConfusion hstep
  refine ⟨?_, ?_, hfive, ?_, ?_, ?_, ?_, ?_⟩
  · constructor
    · rintro ⟨code, w, hstep⟩
      exact hexit code w hstep
    · intro h5
      exact ⟨0, _, hfive h5⟩
  · constructor
    · rintro ⟨w, hstep⟩
      exact hexit 0 w hstep
    · intro h5
      exact ⟨_, hfive h5⟩
  · intro hc
    have h5 : c ≠ 5 := by omega
    simp only [mainIteration, hget, switchChoice_invalid c _ hc]
    simp [h5]
  · rfl
  · rfl
  · exact fun input => (main_finishes input).1
  · exact fun input => (main_finishes input).2

/-- Witness of C10: the selection 6 is out of range, so the pass prints the
invalid-choice message and the loop goes on with an unchanged repository. -/
theorem menu_dispatch_witness :
    mainIteration ⟨emptyRepository,
        [⟨"6", Extract.value 6, Extract.value 6⟩, ⟨"5", Extract.value 5, Extract.value 5⟩], []⟩
      = Step.again ⟨emptyRepository, [⟨"5", Extract.value 5, Extract.value 5⟩],
          showMenu []
            ++ [Printed.text "Invalid choice. Please try again.", Printed.endl]⟩ :=
  (menu_dispatch emptyRepository ⟨"6", Extract.value 6, Extract.value 6⟩
    [⟨"5", Extract.value 5, Extract.value 5⟩] [] 6 rfl).2.2.2.1 (Or.inr (by decide))

end EmployeeSystem
